import Mathlib

/-!
Verification of the `cpp-compile-overhead` measurement scripts.

The repository consists of two Python scripts:

* `scripts/analyze-file.py` — the Measurement Engine: preprocesses and
  compiles a synthetic translation unit, counts preprocessed lines,
  classifies the symbols of the object file, and times the toolchain
  invocations with an adaptive sampler (`measure_time`).
* `scripts/execute-jobs.py` — the Job Cache / Orchestrator: runs a list of
  jobs, memoising Measurement Engine results under a string cache key.

This file embeds the relevant parts of both scripts as Lean functions
(Python strings become `List Char`, Python floats become `ℚ`, Python
`assert` failures become `Option`/`none`) and proves the specification
claims about them.
-/

/-! ## Line counting (analyze-file.py, lines 103–113)

The script reads the preprocessed output and counts (a) all lines and
(b) the lines on which the regex `[a-zA-Z0-9_]` finds a match.  It then
reports `line_count_raw = line_cnt_raw - 2` (comment: `int main()` +
`#include`) and `line_count = line_cnt - 1` (comment: `int main()`).
A line is modelled as a `List Char` (without its trailing newline, which
matches no word character anyway). -/

/-- The character class `[a-zA-Z0-9_]` of the Python regexes (ASCII ranges). -/
def isWordChar (c : Char) : Bool := c.isAlphanum || c = '_'

/-- `re.search(r'[a-zA-Z0-9_]', l) is not None`: the line contains a word character. -/
def hasWordChar (l : List Char) : Bool := l.any isWordChar

/-- `result["line_count_raw"] = line_cnt_raw - 2` where `line_cnt_raw` counts
all lines of the preprocessed output.  Python integers are unbounded and may
go negative, hence `Int`. -/
def line_count_raw (lines : List (List Char)) : Int :=
  (lines.length : Int) - 2

/-- `result["line_count"] = line_cnt - 1` where `line_cnt` counts the lines
containing at least one word character.  Note the source subtracts 1 here,
not 2. -/
def line_count (lines : List (List Char)) : Int :=
  ((lines.filter hasWordChar).length : Int) - 1

/-- Spec-side counterpart: the number of lines containing at least one
alphanumeric-or-underscore character, stated independently of the
implementation's `filter`/`any` combinators. -/
def wordLineCount (lines : List (List Char)) : Nat :=
  lines.countP fun l => decide (∃ c ∈ l, isWordChar c)

/-! ## Symbol classification (analyze-file.py, lines 121–152)

Each `nm` output line is matched against `^[0-9a-zA-Z]* +(\w) (.+)$`.
Because `[0-9a-zA-Z]` does not match a space and `\w` does not match a
space either, the greedy/backtracking regex semantics collapse to a
deterministic decomposition: the maximal alphanumeric prefix, a maximal
nonempty run of spaces, one word character (the symbol type), one space,
and a nonempty remainder (the symbol name).  Lines come from
`splitlines()`, so they contain no newline and `.` matches every
remaining character.  (Python's `\w` would additionally accept non-ASCII
word characters as the type; such a type falls into no class and aborts
the run just like a parse failure, so the observable outcome agrees.) -/

/-- Match one `nm` line against `^[0-9a-zA-Z]* +(\w) (.+)$`, returning the
two capture groups (type character, symbol name) on success. -/
def parseSymLine (l : List Char) : Option (Char × List Char) :=
  match l.dropWhile Char.isAlphanum with
  | ' ' :: rest =>
    match (' ' :: rest).dropWhile (· = ' ') with
    | t :: ' ' :: n => if isWordChar t && !n.isEmpty then some (t, n) else none
    | _ => none
  | _ => none

/-- The three symbol classes of the script. -/
inductive SymClass : Type where
  | undef : SymClass
  | data : SymClass
  | code : SymClass
deriving DecidableEq

/-- The classification of a type character, mirroring the `if st in [...]`
chain of the script; `none` corresponds to `assert False, "unknown symbol
type"`. -/
def classify (t : Char) : Option SymClass :=
  if t ∈ ['u', 'U'] then some .undef
  else if t ∈ ['b', 'B', 'r', 'R', 'd', 'D'] then some .data
  else if t ∈ ['t', 'T'] then some .code
  else none

/-- The six accumulators of the symbol loop.  Python integers, hence `Int`. -/
structure SymStats : Type where
  undef_sym_cnt : Int
  undef_sym_size : Int
  data_sym_cnt : Int
  data_sym_size : Int
  code_sym_cnt : Int
  code_sym_size : Int
deriving DecidableEq

/-- All six accumulators start at 0. -/
def symInit : SymStats := ⟨0, 0, 0, 0, 0, 0⟩

/-- One iteration of the symbol loop: parse the line (failed `assert m is not
None` ⇒ `none`), then update the class of its type character (unknown class ⇒
`assert False` ⇒ `none`). -/
def stepSym (s : SymStats) (l : List Char) : Option SymStats :=
  match parseSymLine l with
  | none => none
  | some (t, n) =>
    if t ∈ ['u', 'U'] then
      some { s with undef_sym_cnt := s.undef_sym_cnt + 1,
                    undef_sym_size := s.undef_sym_size + n.length }
    else if t ∈ ['b', 'B', 'r', 'R', 'd', 'D'] then
      some { s with data_sym_cnt := s.data_sym_cnt + 1,
                    data_sym_size := s.data_sym_size + n.length }
    else if t ∈ ['t', 'T'] then
      some { s with code_sym_cnt := s.code_sym_cnt + 1,
                    code_sym_size := s.code_sym_size + n.length }
    else none

/-- The symbol loop over all `nm` output lines, from a given accumulator
state. -/
def analyzeSymbolsFrom (s : SymStats) : List (List Char) → Option SymStats
  | [] => some s
  | l :: ls =>
    match stepSym s l with
    | none => none
    | some s' => analyzeSymbolsFrom s' ls

/-- The symbol-classification pass of the Measurement Engine: `none` models a
`ParseError` (a failed assertion in the script). -/
def analyzeSymbols (lines : List (List Char)) : Option SymStats :=
  analyzeSymbolsFrom symInit lines

/-- The class a whole line falls into: `none` when the line does not match
the grammar or its type character is unknown. -/
def classOfLine (l : List Char) : Option SymClass :=
  match parseSymLine l with
  | none => none
  | some (t, _) => classify t

/-- Length of the matched name of a line (0 when the line does not match). -/
def nameLen (l : List Char) : Nat :=
  match parseSymLine l with
  | none => 0
  | some (_, n) => n.length

/-- Spec-side count: the number of lines of a given class. -/
def countClass (c : SymClass) (lines : List (List Char)) : Nat :=
  (lines.filter fun l => classOfLine l = some c).length

/-- Spec-side size: the total name length over the lines of a given class. -/
def sizeClass (c : SymClass) (lines : List (List Char)) : Nat :=
  ((lines.filter fun l => classOfLine l = some c).map nameLen).sum

/-! ## Timing sampler (analyze-file.py, lines 163–178)

```
def measure_time(sargs):
    ts = []
    while True:
        if len(ts) > 20:
            break
        if len(ts) >= 8:
            ts.sort()
            if ts[3] / ts[0] < 1.01:  # cheapest 4 deviate less than 1%
                break
        t0 = time.perf_counter()
        subprocess.call(sargs)
        t1 = time.perf_counter()
        ts.append(t1 - t0)
    ts.sort()
    return ts[0]
```

The duration of the i-th execution of the invocation is modelled by a
function `d : ℕ → ℚ` (the clock is opaque; durations become rationals —
the float literal `1.01` is modelled as `101/100`).  The in-place
`ts.sort()` inside the loop only reorders the list: every observable
(the length, the sorted order used by the ratio test, the final minimum)
depends only on the multiset of samples, so the model keeps the samples
in arrival order and sorts where the script sorts.  The `while True`
loop is run on explicit fuel; since each iteration appends one sample
and the loop exits as soon as `len(ts) > 20`, fuel `21` from the empty
list is never exhausted early, and `measure_time_go_fuel` below proves
that any larger fuel gives the same result (i.e. the loop terminates). -/

/-- `ts.sort()` (ascending). -/
def sortQ (ts : List ℚ) : List ℚ := ts.insertionSort (· ≤ ·)

/-- The loop body of `measure_time`, with explicit fuel.  The two `if`s
mirror the script: stop after more than 20 samples, or once at least 8
samples exist and the 4th-smallest is within 1% of the smallest. -/
def measure_time_go (d : ℕ → ℚ) : ℕ → List ℚ → List ℚ
  | 0, ts => ts
  | fuel + 1, ts =>
    if 20 < ts.length then ts
    else if 8 ≤ ts.length ∧ (sortQ ts).getD 3 0 / (sortQ ts).getD 0 0 < 101 / 100 then ts
    else measure_time_go d fuel (ts ++ [d ts.length])

/-- The full sample list collected by `measure_time`. -/
def measure_time_samples (d : ℕ → ℚ) : List ℚ :=
  measure_time_go d 21 []

/-- `measure_time` itself: `ts.sort(); return ts[0]`. -/
def measure_time (d : ℕ → ℚ) : ℚ :=
  (sortQ (measure_time_samples d)).getD 0 0

/-! ## Cache key and orchestrator (execute-jobs.py)

```
for j in jobs:
    id = []
    id.append(j["file"])
    id.append(j["compiler"])
    id += j["args"]
    id = ":".join(id)
    res = {}
    if id in job_cache:
        res = job_cache[id]
        found_cached += 1
    else:
        sargs = [...]
        res = subprocess.check_output(sargs) ...
        job_cache[id] = res
        with open(cache_file, "w") as f:
            json.dump(job_cache, f, indent=4)
    ...
```

Strings are `List Char`; the metrics record returned by the analyzer
subprocess is an opaque type `M`; the analyzer subprocess itself is an
oracle `engine : Job → M` (the toolchain is assumed deterministic).  The
Python dict `job_cache` is an association list in insertion order, and
each `json.dump` of the whole cache is recorded in `persists`. -/

/-- The three identity-forming fields of a job record. -/
structure Job : Type where
  file : List Char
  compiler : List Char
  args : List (List Char)
deriving DecidableEq

/-- `":".join(parts)`. -/
def joinSep (sep : Char) : List (List Char) → List Char
  | [] => []
  | [p] => p
  | p :: q :: ps => p ++ sep :: joinSep sep (q :: ps)

/-- The cache key of a job (the variable `id` in the script):
`":".join([file, compiler] + args)`. -/
def cacheKey (j : Job) : List Char :=
  joinSep ':' ([j.file, j.compiler] ++ j.args)

/-- Lookup in the association-list model of the Python dict. -/
def lookupKey {M : Type} (k : List Char) : List (List Char × M) → Option M
  | [] => none
  | (k', v) :: rest => if k = k' then some v else lookupKey k rest

/-- Orchestrator state: the cache dict, the `found_cached` counter, the
number of analyzer invocations made so far, and the sequence of cache
snapshots written to the cache file. -/
structure OrchState (M : Type) : Type where
  cache : List (List Char × M)
  found_cached : ℕ
  engine_calls : ℕ
  persists : List (List (List Char × M))
deriving DecidableEq

/-- One iteration of the job loop: on a cache hit reuse the stored record
and bump `found_cached`; on a miss invoke the engine, append the new entry
to the dict (Python dict assignment of a fresh key appends in insertion
order) and immediately dump the whole cache.  Returns the new state and
the record `res` used for this job. -/
def processJob {M : Type} (engine : Job → M) (s : OrchState M) (j : Job) :
    OrchState M × M :=
  match lookupKey (cacheKey j) s.cache with
  | some res => ({ s with found_cached := s.found_cached + 1 }, res)
  | none =>
    let res := engine j
    let cache' := s.cache ++ [(cacheKey j, res)]
    ({ cache := cache'
       found_cached := s.found_cached
       engine_calls := s.engine_calls + 1
       persists := s.persists ++ [cache'] }, res)

/-- The job loop: process jobs in input order, returning the final state
and the record used for each job, in order. -/
def runJobs {M : Type} (engine : Job → M) : OrchState M → List Job → OrchState M × List M
  | s, [] => (s, [])
  | s, j :: js =>
    let p := processJob engine s j
    let r := runJobs engine p.1 js
    (r.1, p.2 :: r.2)

/-! ## Lemmas about the timing sampler -/

/-- Unfolding: out of fuel. -/
theorem measure_time_go_zero (d : ℕ → ℚ) (ts : List ℚ) :
    measure_time_go d 0 ts = ts := rfl

/-- Unfolding: one loop iteration. -/
theorem measure_time_go_succ (d : ℕ → ℚ) (f : ℕ) (ts : List ℚ) :
    measure_time_go d (f + 1) ts =
      if 20 < ts.length then ts
      else if 8 ≤ ts.length ∧ (sortQ ts).getD 3 0 / (sortQ ts).getD 0 0 < 101 / 100 then ts
      else measure_time_go d f (ts ++ [d ts.length]) := rfl

/-- Once the `len(ts) > 20` exit is reachable, extra fuel changes nothing. -/
theorem measure_time_go_stable (d : ℕ → ℚ) :
    ∀ (f : ℕ) (ts : List ℚ), 21 ≤ ts.length + f →
      measure_time_go d (f + 1) ts = measure_time_go d f ts := by
  intro f
  induction f with
  | zero =>
    intro ts h
    have h20 : 20 < ts.length := by omega
    rw [measure_time_go_succ, if_pos h20, measure_time_go_zero]
  | succ f ih =>
    intro ts h
    by_cases h20 : 20 < ts.length
    · rw [measure_time_go_succ d (f + 1) ts, if_pos h20,
          measure_time_go_succ d f ts, if_pos h20]
    · by_cases hstop : 8 ≤ ts.length ∧
        (sortQ ts).getD 3 0 / (sortQ ts).getD 0 0 < 101 / 100
      · rw [measure_time_go_succ d (f + 1) ts, if_neg h20, if_pos hstop,
            measure_time_go_succ d f ts, if_neg h20, if_pos hstop]
      · rw [measure_time_go_succ d (f + 1) ts, if_neg h20, if_neg hstop,
            measure_time_go_succ d f ts, if_neg h20, if_neg hstop]
        exact ih _ (by simp only [List.length_append, List.length_cons,
          List.length_nil]; omega)

/-- The loop terminates: any fuel of at least 21 produces the canonical
sample list.  This is the model-level statement that the `while True`
loop of `measure_time` always exits. -/
theorem measure_time_go_fuel (d : ℕ → ℚ) :
    ∀ fuel : ℕ, 21 ≤ fuel → measure_time_go d fuel [] = measure_time_samples d := by
  intro fuel h
  obtain ⟨k, rfl⟩ : ∃ k, fuel = 21 + k := ⟨fuel - 21, by omega⟩
  clear h
  induction k with
  | zero => rfl
  | succ k ih =>
    have h1 : 21 + (k + 1) = (21 + k) + 1 := by omega
    rw [h1, measure_time_go_stable d (21 + k) [] (by simp), ih]

/-- Each loop iteration appends exactly one sample. -/
theorem measure_time_go_length_le (d : ℕ → ℚ) :
    ∀ (f : ℕ) (ts : List ℚ), (measure_time_go d f ts).length ≤ ts.length + f := by
  intro f
  induction f with
  | zero => intro ts; rw [measure_time_go_zero]; omega
  | succ f ih =>
    intro ts
    by_cases h20 : 20 < ts.length
    · rw [measure_time_go_succ, if_pos h20]; omega
    · by_cases hstop : 8 ≤ ts.length ∧
        (sortQ ts).getD 3 0 / (sortQ ts).getD 0 0 < 101 / 100
      · rw [measure_time_go_succ, if_neg h20, if_pos hstop]; omega
      · rw [measure_time_go_succ, if_neg h20, if_neg hstop]
        have h2 := ih (ts ++ [d ts.length])
        simp only [List.length_append, List.length_cons, List.length_nil] at h2
        omega

/-- No exit of the loop can fire before 8 samples exist, so as long as
there is fuel the sample list keeps at least the pace of `min (len + fuel) 8`. -/
theorem measure_time_go_length_ge (d : ℕ → ℚ) :
    ∀ (f : ℕ) (ts : List ℚ), min (ts.length + f) 8 ≤ (measure_time_go d f ts).length := by
  intro f
  induction f with
  | zero => intro ts; rw [measure_time_go_zero]; omega
  | succ f ih =>
    intro ts
    by_cases h20 : 20 < ts.length
    · rw [measure_time_go_succ, if_pos h20]; omega
    · by_cases hstop : 8 ≤ ts.length ∧
        (sortQ ts).getD 3 0 / (sortQ ts).getD 0 0 < 101 / 100
      · rw [measure_time_go_succ, if_neg h20, if_pos hstop]; omega
      · rw [measure_time_go_succ, if_neg h20, if_neg hstop]
        have h2 := ih (ts ++ [d ts.length])
        simp only [List.length_append, List.length_cons, List.length_nil] at h2
        omega

/-- Once at least 8 samples exist and the ratio test passes, the loop
performs no further execution: it returns its sample list unchanged. -/
theorem measure_time_go_early_stop (d : ℕ → ℚ) (f : ℕ) (ts : List ℚ)
    (h8 : 8 ≤ ts.length)
    (hr : (sortQ ts).getD 3 0 / (sortQ ts).getD 0 0 < 101 / 100) :
    measure_time_go d f ts = ts := by
  cases f with
  | zero => rfl
  | succ f =>
    by_cases h20 : 20 < ts.length
    · rw [measure_time_go_succ, if_pos h20]
    · rw [measure_time_go_succ, if_neg h20, if_pos (And.intro h8 hr)]

/-- The head of the sorted sample list is a member of the samples and a
lower bound for them. -/
theorem sortQ_head_min (ts : List ℚ) (h : ts ≠ []) :
    (sortQ ts).getD 0 0 ∈ ts ∧ ∀ x ∈ ts, (sortQ ts).getD 0 0 ≤ x := by
  have hperm : List.Perm (sortQ ts) ts := List.perm_insertionSort _ ts
  have hsorted : List.Sorted (· ≤ ·) (sortQ ts) := List.sorted_insertionSort _ ts
  match hs : sortQ ts with
  | [] =>
    rw [hs] at hperm
    exact absurd hperm.symm.eq_nil h
  | a :: rest =>
    rw [hs] at hperm hsorted
    simp only [List.getD_cons_zero]
    constructor
    · exact hperm.mem_iff.mp (List.mem_cons_self a rest)
    · intro x hx
      rcases List.mem_cons.mp (hperm.mem_iff.mpr hx) with hxa | hxr
      · exact le_of_eq hxa.symm
      · exact List.rel_of_sorted_cons hsorted x hxr

/-! ## Claims about the timing sampler -/

/-- C1 (counterexample): with strictly increasing synthetic durations the
ratio test never passes, and the sampler times the invocation 21 times —
the loop's guard is `len(ts) > 20`, so the 21st execution happens before it
fires, exceeding the 20 executions the claim allows. -/
theorem measure_time_21_executions :
    (measure_time_samples (fun i => (i + 1 : ℚ))).length = 21 ∧
    ¬(measure_time_samples (fun i => (i + 1 : ℚ))).length ≤ 20 := by
  with_unfolding_all decide

/-- C1 (amended): for every duration sequence, `measure_time` terminates —
any fuel of at least 21 yields the same sample list — and the total number
of timed executions of the invocation is at most 21. -/
theorem measure_time_terminates_le_21 (d : ℕ → ℚ) (fuel : ℕ) (h : 21 ≤ fuel) :
    measure_time_go d fuel [] = measure_time_samples d ∧
    (measure_time_samples d).length ≤ 21 := by
  refine ⟨measure_time_go_fuel d fuel h, ?_⟩
  have h1 := measure_time_go_length_le d 21 []
  simp only [List.length_nil, Nat.zero_add] at h1
  simpa [measure_time_samples] using h1

/-- Witness for the amended C1 at the constant duration sequence 1. -/
theorem measure_time_terminates_le_21_witness :
    21 ≤ 25 ∧
    (measure_time_go (fun _ => (1 : ℚ)) 25 [] = measure_time_samples (fun _ => (1 : ℚ)) ∧
      (measure_time_samples (fun _ => (1 : ℚ))).length ≤ 21) :=
  ⟨by decide, measure_time_terminates_le_21 (fun _ => (1 : ℚ)) 25 (by decide)⟩

/-- C10: the ratio test is guarded by `len(ts) >= 8` and the `len(ts) > 20`
exit cannot fire below 21 samples, so every run of `measure_time` executes
the invocation at least 8 times, whatever the observed durations are. -/
theorem measure_time_at_least_8_samples (d : ℕ → ℚ) :
    8 ≤ (measure_time_samples d).length := by
  have h := measure_time_go_length_ge d 21 []
  simp only [List.length_nil] at h
  simp only [measure_time_samples]
  omega

/-- C7: once at least 8 samples exist whose 4th-smallest over smallest ratio
is below 1.01, no further execution of the invocation occurs, and the value
`measure_time` returns is the minimum of all observed durations. -/
theorem measure_time_early_stop_min (d : ℕ → ℚ) (fuel : ℕ) (ts : List ℚ)
    (h8 : 8 ≤ ts.length)
    (hr : (sortQ ts).getD 3 0 / (sortQ ts).getD 0 0 < 101 / 100) :
    measure_time_go d fuel ts = ts ∧
    measure_time d ∈ measure_time_samples d ∧
    ∀ x ∈ measure_time_samples d, measure_time d ≤ x := by
  have h8s : 8 ≤ (measure_time_samples d).length := by
    have h := measure_time_go_length_ge d 21 []
    simp only [List.length_nil] at h
    simp only [measure_time_samples]
    omega
  have hne : measure_time_samples d ≠ [] := by
    intro hnil
    rw [hnil] at h8s
    simp at h8s
  have hmin := sortQ_head_min (measure_time_samples d) hne
  exact ⟨measure_time_go_early_stop d fuel ts h8 hr, hmin.1, hmin.2⟩

/-- Witness for C7 at 8 samples of constant duration 1 (ratio 1 < 1.01). -/
theorem measure_time_early_stop_min_witness :
    (8 ≤ (List.replicate 8 (1 : ℚ)).length ∧
      (sortQ (List.replicate 8 (1 : ℚ))).getD 3 0 / (sortQ (List.replicate 8 (1 : ℚ))).getD 0 0
        < 101 / 100) ∧
    (measure_time_go (fun _ => (1 : ℚ)) 5 (List.replicate 8 (1 : ℚ)) = List.replicate 8 (1 : ℚ) ∧
      measure_time (fun _ => (1 : ℚ)) ∈ measure_time_samples (fun _ => (1 : ℚ)) ∧
      ∀ x ∈ measure_time_samples (fun _ => (1 : ℚ)), measure_time (fun _ => (1 : ℚ)) ≤ x) :=
  ⟨⟨by decide, by with_unfolding_all decide⟩,
    measure_time_early_stop_min (fun _ => (1 : ℚ)) 5 (List.replicate 8 (1 : ℚ))
      (by decide) (by with_unfolding_all decide)⟩

/-! ## Lemmas about symbol classification -/

/-- The symbol loop aborts on a line exactly when the line does not match
the grammar or its type character falls into no class. -/
theorem stepSym_eq_none (s : SymStats) (l : List Char) :
    stepSym s l = none ↔ classOfLine l = none := by
  cases hp : parseSymLine l with
  | none => simp [stepSym, classOfLine, hp]
  | some p =>
    obtain ⟨t, n⟩ := p
    by_cases h1 : t ∈ ['u', 'U']
    · simp [stepSym, classOfLine, classify, hp, h1]
    · by_cases h2 : t ∈ ['b', 'B', 'r', 'R', 'd', 'D']
      · simp [stepSym, classOfLine, classify, hp, h1, h2]
      · by_cases h3 : t ∈ ['t', 'T']
        · simp [stepSym, classOfLine, classify, hp, h1, h2, h3]
        · simp [stepSym, classOfLine, classify, hp, h1, h2, h3]

/-- Unfolding the per-class line count over a cons. -/
theorem countClass_cons (c : SymClass) (l : List Char) (ls : List (List Char)) :
    countClass c (l :: ls) =
      if classOfLine l = some c then countClass c ls + 1 else countClass c ls := by
  by_cases hc : classOfLine l = some c <;>
    simp [countClass, List.filter_cons, hc]

/-- Unfolding the per-class total name length over a cons. -/
theorem sizeClass_cons (c : SymClass) (l : List Char) (ls : List (List Char)) :
    sizeClass c (l :: ls) =
      if classOfLine l = some c then nameLen l + sizeClass c ls else sizeClass c ls := by
  by_cases hc : classOfLine l = some c <;>
    simp [sizeClass, List.filter_cons, hc]

/-- Running the symbol loop from an arbitrary accumulator over lines that
all classify adds exactly the per-class counts and name lengths. -/
theorem analyzeSymbolsFrom_eq (lines : List (List Char)) :
    ∀ s : SymStats, (∀ l ∈ lines, (classOfLine l).isSome) →
      analyzeSymbolsFrom s lines = some
        { undef_sym_cnt := s.undef_sym_cnt + countClass .undef lines,
          undef_sym_size := s.undef_sym_size + sizeClass .undef lines,
          data_sym_cnt := s.data_sym_cnt + countClass .data lines,
          data_sym_size := s.data_sym_size + sizeClass .data lines,
          code_sym_cnt := s.code_sym_cnt + countClass .code lines,
          code_sym_size := s.code_sym_size + sizeClass .code lines } := by
  induction lines with
  | nil => intro s h; simp [analyzeSymbolsFrom, countClass, sizeClass]
  | cons l ls ih =>
    intro s h
    have hl : (classOfLine l).isSome := h l (List.mem_cons_self l ls)
    have htail : ∀ l' ∈ ls, (classOfLine l').isSome :=
      fun l' hl' => h l' (List.mem_cons_of_mem l hl')
    cases hp : parseSymLine l with
    | none => simp [classOfLine, hp] at hl
    | some p =>
      obtain ⟨t, n⟩ := p
      have hnl : nameLen l = n.length := by simp [nameLen, hp]
      by_cases h1 : t ∈ ['u', 'U']
      · have hcl : classOfLine l = some .undef := by
          simp [classOfLine, classify, hp, h1]
        simp only [analyzeSymbolsFrom, stepSym, hp, if_pos h1]
        rw [ih _ htail]
        simp only [Option.some.injEq, SymStats.mk.injEq,
          countClass_cons, sizeClass_cons, hcl, hnl, if_pos rfl]
        refine ⟨?_, ?_, ?_, ?_, ?_, ?_⟩ <;> simp <;> ring
      · by_cases h2 : t ∈ ['b', 'B', 'r', 'R', 'd', 'D']
        · have hcl : classOfLine l = some .data := by
            simp [classOfLine, classify, hp, h1, h2]
          simp only [analyzeSymbolsFrom, stepSym, hp, if_neg h1, if_pos h2]
          rw [ih _ htail]
          simp only [Option.some.injEq, SymStats.mk.injEq,
            countClass_cons, sizeClass_cons, hcl, hnl, if_pos rfl]
          refine ⟨?_, ?_, ?_, ?_, ?_, ?_⟩ <;> simp <;> ring
        · by_cases h3 : t ∈ ['t', 'T']
          · have hcl : classOfLine l = some .code := by
              simp [classOfLine, classify, hp, h1, h2, h3]
            simp only [analyzeSymbolsFrom, stepSym, hp, if_neg h1, if_neg h2, if_pos h3]
            rw [ih _ htail]
            simp only [Option.some.injEq, SymStats.mk.injEq,
              countClass_cons, sizeClass_cons, hcl, hnl, if_pos rfl]
            refine ⟨?_, ?_, ?_, ?_, ?_, ?_⟩ <;> simp <;> ring
          · exfalso
            have : classOfLine l = none := by
              simp [classOfLine, classify, hp, h1, h2, h3]
            rw [this] at hl
            simp at hl

/-- A single bad line aborts the whole symbol loop, from any accumulator. -/
theorem analyzeSymbolsFrom_none (lines : List (List Char)) :
    ∀ s : SymStats, (∃ l ∈ lines, classOfLine l = none) →
      analyzeSymbolsFrom s lines = none := by
  induction lines with
  | nil => intro s h; simp at h
  | cons l ls ih =>
    intro s h
    by_cases hl : classOfLine l = none
    · have hs := (stepSym_eq_none s l).mpr hl
      simp [analyzeSymbolsFrom, hs]
    · obtain ⟨l', hl', hnone⟩ := h
      rcases List.mem_cons.mp hl' with rfl | hmem
      · exact absurd hnone hl
      · cases hs : stepSym s l with
        | none => simp [analyzeSymbolsFrom, hs]
        | some s' =>
          simp only [analyzeSymbolsFrom, hs]
          exact ih s' ⟨l', hmem, hnone⟩

/-! ## Claims about symbol classification -/

/-- C5: on a symbol dump whose lines all match the grammar with a known
type character, the engine reports, for each of the three classes, the
number of matching lines as the count and the total matched name length
as the size. -/
theorem symbol_classification_correct (lines : List (List Char))
    (h : ∀ l ∈ lines, (classOfLine l).isSome) :
    analyzeSymbols lines = some
      { undef_sym_cnt := (countClass .undef lines : Int),
        undef_sym_size := (sizeClass .undef lines : Int),
        data_sym_cnt := (countClass .data lines : Int),
        data_sym_size := (sizeClass .data lines : Int),
        code_sym_cnt := (countClass .code lines : Int),
        code_sym_size := (sizeClass .code lines : Int) } := by
  have hrun := analyzeSymbolsFrom_eq lines symInit h
  simpa [analyzeSymbols, symInit] using hrun

/-- The three example dump lines of the spec. -/
def specDumpLines : List (List Char) :=
  ["0000 T foo".toList, "0000 D bar".toList, "0000 U baz".toList]

/-- Witness for C5 on the three example dump lines of the spec. -/
theorem symbol_classification_correct_witness :
    (∀ l ∈ specDumpLines, (classOfLine l).isSome) ∧
    analyzeSymbols specDumpLines = some
      { undef_sym_cnt := (countClass .undef specDumpLines : Int),
        undef_sym_size := (sizeClass .undef specDumpLines : Int),
        data_sym_cnt := (countClass .data specDumpLines : Int),
        data_sym_size := (sizeClass .data specDumpLines : Int),
        code_sym_cnt := (countClass .code specDumpLines : Int),
        code_sym_size := (sizeClass .code specDumpLines : Int) } :=
  ⟨by decide, symbol_classification_correct _ (by decide)⟩

/-- C6: a symbol dump containing a line that fails the grammar, or whose
type character is outside the three known classes, makes the engine fail
with a ParseError — the line is never skipped or counted. -/
theorem symbol_unknown_type_error (lines : List (List Char))
    (h : ∃ l ∈ lines, classOfLine l = none) :
    analyzeSymbols lines = none :=
  analyzeSymbolsFrom_none lines symInit h

/-- Witness for C6 on the unrecognized type character line of the spec. -/
theorem symbol_unknown_type_error_witness :
    (∃ l ∈ ["0000 X qux".toList], classOfLine l = none) ∧
    analyzeSymbols ["0000 X qux".toList] = none :=
  ⟨by decide, symbol_unknown_type_error _ (by decide)⟩

/-! ## Claims about line counting -/

/-- The implementation's filtered length agrees with the spec-side count of
lines containing a word character. -/
theorem filter_hasWordChar_eq_wordLineCount (lines : List (List Char)) :
    (lines.filter hasWordChar).length = wordLineCount lines := by
  rw [wordLineCount, List.countP_eq_length_filter]
  congr 1
  apply List.filter_congr
  intro l _
  rw [hasWordChar, Bool.eq_iff_iff]
  simp [List.any_eq_true]

/-- C2 (counterexample): on a three-line output whose lines all contain word
characters, the engine reports `line_count = 2`, not the `3 - 2 = 1` the
claim's "minus 2" demands. -/
theorem line_count_not_word_minus_two :
    line_count [['a'], ['b'], ['c']] = 2 ∧
    (wordLineCount [['a'], ['b'], ['c']] : Int) - 2 = 1 ∧
    line_count [['a'], ['b'], ['c']] ≠ (wordLineCount [['a'], ['b'], ['c']] : Int) - 2 := by
  refine ⟨by decide, by decide, by decide⟩

/-- C2 (amended): `line_count_raw` is the raw number of output lines minus 2,
while `line_count` is the number of lines containing at least one
alphanumeric-or-underscore character minus 1 (the script subtracts only the
`int main()` line from the second count). -/
theorem line_counts_formula (lines : List (List Char)) :
    line_count_raw lines = (lines.length : Int) - 2 ∧
    line_count lines = (wordLineCount lines : Int) - 1 := by
  refine ⟨rfl, ?_⟩
  rw [line_count, filter_hasWordChar_eq_wordLineCount]

/-! ## Non-negativity of the count fields -/

/-- The three count accumulators of the symbol loop never decrease below 0:
each matched line adds exactly 1 to one of them. -/
theorem analyzeSymbolsFrom_nonneg (lines : List (List Char)) :
    ∀ s s' : SymStats,
      0 ≤ s.undef_sym_cnt → 0 ≤ s.data_sym_cnt → 0 ≤ s.code_sym_cnt →
      analyzeSymbolsFrom s lines = some s' →
      0 ≤ s'.undef_sym_cnt ∧ 0 ≤ s'.data_sym_cnt ∧ 0 ≤ s'.code_sym_cnt := by
  induction lines with
  | nil =>
    intro s s' h1 h2 h3 h
    simp only [analyzeSymbolsFrom, Option.some.injEq] at h
    subst h
    exact ⟨h1, h2, h3⟩
  | cons l ls ih =>
    intro s s' h1 h2 h3 h
    cases hs : stepSym s l with
    | none => simp [analyzeSymbolsFrom, hs] at h
    | some s1 =>
      simp only [analyzeSymbolsFrom, hs] at h
      cases hp : parseSymLine l with
      | none => rw [stepSym, hp] at hs; exact absurd hs (by simp)
      | some p =>
        obtain ⟨t, n⟩ := p
        simp only [stepSym, hp] at hs
        by_cases hc1 : t ∈ ['u', 'U']
        · rw [if_pos hc1] at hs
          injection hs with hs1
          subst hs1
          exact ih _ s' (by simp; omega) (by simpa using h2) (by simpa using h3) h
        · by_cases hc2 : t ∈ ['b', 'B', 'r', 'R', 'd', 'D']
          · rw [if_neg hc1, if_pos hc2] at hs
            injection hs with hs1
            subst hs1
            exact ih _ s' (by simpa using h1) (by simp; omega) (by simpa using h3) h
          · by_cases hc3 : t ∈ ['t', 'T']
            · rw [if_neg hc1, if_neg hc2, if_pos hc3] at hs
              injection hs with hs1
              subst hs1
              exact ih _ s' (by simpa using h1) (by simpa using h2) (by simp; omega) h
            · rw [if_neg hc1, if_neg hc2, if_neg hc3] at hs
              exact absurd hs (by simp)

/-- C9 (counterexample): on an empty preprocessed output (a successful run
as far as symbol analysis is concerned), `line_count_raw` is the negative
number -2. -/
theorem line_count_raw_negative :
    analyzeSymbols [] = some symInit ∧
    line_count_raw [] = -2 ∧ ¬0 ≤ line_count_raw [] :=
  ⟨rfl, by decide, by decide⟩

/-- C9 (amended): on every successful run the three symbol counts are
non-negative; `line_count_raw` is non-negative whenever the preprocessed
output has at least 2 lines, and `line_count` is non-negative whenever at
least 1 line contains a word character (in general they can be as low as
-2 and -1 respectively). -/
theorem counts_nonneg (plines symlines : List (List Char)) (stats : SymStats)
    (h : analyzeSymbols symlines = some stats) :
    (0 ≤ stats.undef_sym_cnt ∧ 0 ≤ stats.data_sym_cnt ∧ 0 ≤ stats.code_sym_cnt) ∧
    (2 ≤ plines.length → 0 ≤ line_count_raw plines) ∧
    (1 ≤ (plines.filter hasWordChar).length → 0 ≤ line_count plines) := by
  rw [analyzeSymbols] at h
  refine ⟨analyzeSymbolsFrom_nonneg symlines symInit stats le_rfl le_rfl le_rfl h, ?_, ?_⟩
  · intro hlen
    rw [line_count_raw]
    omega
  · intro hlen
    rw [line_count]
    omega

/-- Witness for the amended C9 on a two-line output and a one-line dump. -/
theorem counts_nonneg_witness :
    analyzeSymbols ["0000 T foo".toList] = some ⟨0, 0, 0, 0, 1, 3⟩ ∧
    ((0 ≤ (⟨0, 0, 0, 0, 1, 3⟩ : SymStats).undef_sym_cnt ∧
        0 ≤ (⟨0, 0, 0, 0, 1, 3⟩ : SymStats).data_sym_cnt ∧
        0 ≤ (⟨0, 0, 0, 0, 1, 3⟩ : SymStats).code_sym_cnt) ∧
      (2 ≤ ([['a'], ['b']] : List (List Char)).length → 0 ≤ line_count_raw [['a'], ['b']]) ∧
      (1 ≤ (([['a'], ['b']] : List (List Char)).filter hasWordChar).length →
        0 ≤ line_count [['a'], ['b']])) :=
  ⟨by decide, counts_nonneg [['a'], ['b']] ["0000 T foo".toList] ⟨0, 0, 0, 0, 1, 3⟩ (by decide)⟩

/-! ## Lemmas about the cache key -/

/-- Splitting at a separator that occurs in neither prefix is unambiguous. -/
theorem append_sep_inj (sep : Char) :
    ∀ (x y a b : List Char), sep ∉ x → sep ∉ y →
      x ++ sep :: a = y ++ sep :: b → x = y ∧ a = b := by
  intro x
  induction x with
  | nil =>
    intro y a b _ hy h
    cases y with
    | nil => simpa using h
    | cons c y' =>
      simp only [List.nil_append, List.cons_append, List.cons.injEq] at h
      obtain ⟨rfl, _⟩ := h
      exact absurd (List.mem_cons_self _ _) hy
  | cons c x' ih =>
    intro y a b hx hy h
    cases y with
    | nil =>
      simp only [List.cons_append, List.nil_append, List.cons.injEq] at h
      obtain ⟨rfl, _⟩ := h
      exact absurd (List.mem_cons_self _ _) hx
    | cons e y' =>
      simp only [List.cons_append, List.cons.injEq] at h
      obtain ⟨rfl, h2⟩ := h
      have hx' : sep ∉ x' := fun hm => hx (List.mem_cons_of_mem _ hm)
      have hy' : sep ∉ y' := fun hm => hy (List.mem_cons_of_mem _ hm)
      obtain ⟨rfl, rfl⟩ := ih y' a b hx' hy' h2
      exact ⟨rfl, rfl⟩

/-- A join of two or more parts contains the separator. -/
theorem sep_mem_joinSep (sep : Char) (p q : List Char) (ps : List (List Char)) :
    sep ∈ joinSep sep (p :: q :: ps) := by
  rw [joinSep]
  exact List.mem_append_right _ (List.mem_cons_self _ _)

/-- On nonempty lists of separator-free parts, `join` is injective. -/
theorem joinSep_inj (sep : Char) :
    ∀ ps qs : List (List Char),
      (∀ p ∈ ps, sep ∉ p) → (∀ q ∈ qs, sep ∉ q) →
      ps ≠ [] → qs ≠ [] →
      joinSep sep ps = joinSep sep qs → ps = qs := by
  intro ps
  induction ps with
  | nil => intro qs _ _ hne _ _; exact absurd rfl hne
  | cons p ps' ih =>
    intro qs hps hqs _ hqne h
    cases qs with
    | nil => exact absurd rfl hqne
    | cons q qs' =>
      cases ps' with
      | nil =>
        cases qs' with
        | nil =>
          simp only [joinSep] at h
          rw [h]
        | cons q2 qs'' =>
          exfalso
          have hsep : sep ∈ p := by
            have hj : joinSep sep [p] = p := rfl
            rw [← hj, h]
            exact sep_mem_joinSep sep q q2 qs''
          exact hps p (List.mem_cons_self _ _) hsep
      | cons p2 ps'' =>
        cases qs' with
        | nil =>
          exfalso
          have hsep : sep ∈ q := by
            have hj : joinSep sep [q] = q := rfl
            rw [← hj, ← h]
            exact sep_mem_joinSep sep p p2 ps''
          exact hqs q (List.mem_cons_self _ _) hsep
        | cons q2 qs'' =>
          rw [joinSep, joinSep] at h
          have hp : sep ∉ p := hps p (List.mem_cons_self _ _)
          have hq : sep ∉ q := hqs q (List.mem_cons_self _ _)
          obtain ⟨rfl, h2⟩ := append_sep_inj sep p q _ _ hp hq h
          have htail := ih (q2 :: qs'')
            (fun x hx => hps x (List.mem_cons_of_mem _ hx))
            (fun x hx => hqs x (List.mem_cons_of_mem _ hx))
            (by simp) (by simp) h2
          rw [htail]

/-! ## Claims about the cache key -/

/-- C3 (counterexample): two jobs with the same file and compiler whose
`args` differ only in order nevertheless share one CacheKey, because an
argument containing the separator `:` makes the join ambiguous
(`"f:c:a:a:a"` both ways). -/
theorem cacheKey_args_order_collision :
    (⟨['f'], ['c'], [['a'], ['a', ':', 'a']]⟩ : Job).file
        = (⟨['f'], ['c'], [['a', ':', 'a'], ['a']]⟩ : Job).file ∧
    (⟨['f'], ['c'], [['a'], ['a', ':', 'a']]⟩ : Job).compiler
        = (⟨['f'], ['c'], [['a', ':', 'a'], ['a']]⟩ : Job).compiler ∧
    (⟨['f'], ['c'], [['a'], ['a', ':', 'a']]⟩ : Job).args
        ≠ (⟨['f'], ['c'], [['a', ':', 'a'], ['a']]⟩ : Job).args ∧
    cacheKey ⟨['f'], ['c'], [['a'], ['a', ':', 'a']]⟩
        = cacheKey ⟨['f'], ['c'], [['a', ':', 'a'], ['a']]⟩ := by
  refine ⟨rfl, rfl, by decide, by decide⟩

/-- C3 (amended): as long as no component contains the separator `:`, the
CacheKey is injective: two jobs get the same key exactly when file,
compiler and the ordered args sequence all agree (so reordering distinct
colon-free args changes the key). -/
theorem cacheKey_inj_colon_free (j1 j2 : Job)
    (h1 : ':' ∉ j1.file ∧ ':' ∉ j1.compiler ∧ ∀ a ∈ j1.args, ':' ∉ a)
    (h2 : ':' ∉ j2.file ∧ ':' ∉ j2.compiler ∧ ∀ a ∈ j2.args, ':' ∉ a) :
    cacheKey j1 = cacheKey j2 ↔
      j1.file = j2.file ∧ j1.compiler = j2.compiler ∧ j1.args = j2.args := by
  constructor
  · intro h
    have hm1 : ∀ p ∈ [j1.file, j1.compiler] ++ j1.args, ':' ∉ p := by
      intro p hp
      rcases List.mem_append.mp hp with hp | hp
      · rcases List.mem_cons.mp hp with rfl | hp
        · exact h1.1
        · rcases List.mem_cons.mp hp with rfl | hp
          · exact h1.2.1
          · simp at hp
      · exact h1.2.2 p hp
    have hm2 : ∀ p ∈ [j2.file, j2.compiler] ++ j2.args, ':' ∉ p := by
      intro p hp
      rcases List.mem_append.mp hp with hp | hp
      · rcases List.mem_cons.mp hp with rfl | hp
        · exact h2.1
        · rcases List.mem_cons.mp hp with rfl | hp
          · exact h2.2.1
          · simp at hp
      · exact h2.2.2 p hp
    have hlist := joinSep_inj ':' ([j1.file, j1.compiler] ++ j1.args)
      ([j2.file, j2.compiler] ++ j2.args) hm1 hm2 (by simp) (by simp) h
    simp only [List.cons_append, List.nil_append, List.cons.injEq] at hlist
    exact ⟨hlist.1, hlist.2.1, hlist.2.2⟩
  · rintro ⟨hf, hc, ha⟩
    rw [cacheKey, cacheKey, hf, hc, ha]

/-- Witness for the amended C3 on two concrete colon-free jobs. -/
theorem cacheKey_inj_colon_free_witness :
    ((':' ∉ (⟨['a'], ['c'], [['x']]⟩ : Job).file ∧
        ':' ∉ (⟨['a'], ['c'], [['x']]⟩ : Job).compiler ∧
        ∀ a ∈ (⟨['a'], ['c'], [['x']]⟩ : Job).args, ':' ∉ a) ∧
      (':' ∉ (⟨['b'], ['c'], []⟩ : Job).file ∧
        ':' ∉ (⟨['b'], ['c'], []⟩ : Job).compiler ∧
        ∀ a ∈ (⟨['b'], ['c'], []⟩ : Job).args, ':' ∉ a)) ∧
    (cacheKey ⟨['a'], ['c'], [['x']]⟩ = cacheKey ⟨['b'], ['c'], []⟩ ↔
      (⟨['a'], ['c'], [['x']]⟩ : Job).file = (⟨['b'], ['c'], []⟩ : Job).file ∧
      (⟨['a'], ['c'], [['x']]⟩ : Job).compiler = (⟨['b'], ['c'], []⟩ : Job).compiler ∧
      (⟨['a'], ['c'], [['x']]⟩ : Job).args = (⟨['b'], ['c'], []⟩ : Job).args) :=
  ⟨⟨by decide, by decide⟩,
    cacheKey_inj_colon_free ⟨['a'], ['c'], [['x']]⟩ ⟨['b'], ['c'], []⟩
      (by decide) (by decide)⟩

/-! ## Lemmas about the orchestrator -/

/-- Lookup distributes over appending cache entries: existing bindings win. -/
theorem lookupKey_append {M : Type} (k : List Char) :
    ∀ c c2 : List (List Char × M),
      lookupKey k (c ++ c2) =
        match lookupKey k c with
        | some v => some v
        | none => lookupKey k c2 := by
  intro c
  induction c with
  | nil => intro c2; simp [lookupKey]
  | cons p rest ih =>
    intro c2
    obtain ⟨k', v'⟩ := p
    simp only [List.cons_append, lookupKey]
    by_cases hk : k = k'
    · rw [if_pos hk, if_pos hk]
    · rw [if_neg hk, if_neg hk]
      exact ih c2

/-- On a cache hit, the engine is not invoked: only `found_cached` changes,
and the stored record is returned. -/
theorem processJob_hit {M : Type} (engine : Job → M) (s : OrchState M) (j : Job) (v : M)
    (h : lookupKey (cacheKey j) s.cache = some v) :
    processJob engine s j = ({ s with found_cached := s.found_cached + 1 }, v) := by
  simp only [processJob, h]

/-- On a cache miss, the engine runs once, the new binding is appended to
the cache, and the whole cache is written out. -/
theorem processJob_miss {M : Type} (engine : Job → M) (s : OrchState M) (j : Job)
    (h : lookupKey (cacheKey j) s.cache = none) :
    processJob engine s j =
      ({ cache := s.cache ++ [(cacheKey j, engine j)]
         found_cached := s.found_cached
         engine_calls := s.engine_calls + 1
         persists := s.persists ++ [s.cache ++ [(cacheKey j, engine j)]] }, engine j) := by
  simp only [processJob, h]

/-- Existing cache bindings survive one job: nothing is evicted or
overwritten. -/
theorem processJob_preserves {M : Type} (engine : Job → M) (s : OrchState M) (j : Job)
    (k : List Char) (v : M) (h : lookupKey k s.cache = some v) :
    lookupKey k (processJob engine s j).1.cache = some v := by
  cases hl : lookupKey (cacheKey j) s.cache with
  | some w => rw [processJob_hit engine s j w hl]; exact h
  | none =>
    rw [processJob_miss engine s j hl]
    show lookupKey k (s.cache ++ [(cacheKey j, engine j)]) = some v
    rw [lookupKey_append, h]

/-- After a job is processed, its key is bound to exactly the record that
was returned for it. -/
theorem processJob_lookup_self {M : Type} (engine : Job → M) (s : OrchState M) (j : Job) :
    lookupKey (cacheKey j) (processJob engine s j).1.cache
      = some (processJob engine s j).2 := by
  cases hl : lookupKey (cacheKey j) s.cache with
  | some w => rw [processJob_hit engine s j w hl]; exact hl
  | none =>
    rw [processJob_miss engine s j hl]
    show lookupKey (cacheKey j) (s.cache ++ [(cacheKey j, engine j)]) = some (engine j)
    rw [lookupKey_append, hl]
    simp [lookupKey]

/-- Unfolding: the empty job list. -/
theorem runJobs_nil {M : Type} (engine : Job → M) (s : OrchState M) :
    runJobs engine s [] = (s, []) := rfl

/-- Unfolding: one more job. -/
theorem runJobs_cons {M : Type} (engine : Job → M) (s : OrchState M) (j : Job)
    (js : List Job) :
    runJobs engine s (j :: js) =
      ((runJobs engine (processJob engine s j).1 js).1,
        (processJob engine s j).2 :: (runJobs engine (processJob engine s j).1 js).2) := rfl

/-- Existing cache bindings survive a whole run. -/
theorem runJobs_preserves {M : Type} (engine : Job → M) :
    ∀ (js : List Job) (s : OrchState M) (k : List Char) (v : M),
      lookupKey k s.cache = some v →
      lookupKey k ((runJobs engine s js).1).cache = some v := by
  intro js
  induction js with
  | nil => intro s k v h; exact h
  | cons j js ih =>
    intro s k v h
    rw [runJobs_cons]
    exact ih _ k v (processJob_preserves engine s j k v h)

/-- A run over a concatenation is the two runs in sequence. -/
theorem runJobs_append {M : Type} (engine : Job → M) :
    ∀ (xs ys : List Job) (s : OrchState M),
      runJobs engine s (xs ++ ys) =
        ((runJobs engine (runJobs engine s xs).1 ys).1,
          (runJobs engine s xs).2 ++ (runJobs engine (runJobs engine s xs).1 ys).2) := by
  intro xs
  induction xs with
  | nil => intro ys s; simp [runJobs_nil]
  | cons x xs ih =>
    intro ys s
    rw [List.cons_append, runJobs_cons, ih, runJobs_cons]
    rw [List.cons_append]

/-! ## Claims about the orchestrator -/

/-- C4: when one run processes two jobs with identical file, compiler and
ordered args (at any two positions), the run decomposes around them, both
receive the identical record, the second job's step makes no engine call
(so across the two jobs the engine runs at most once), and the reuse
counter is incremented at the second job's step. -/
theorem duplicate_jobs_cached {M : Type} (engine : Job → M) (s0 : OrchState M)
    (pre mid post : List Job) (j1 j2 : Job) (s1 s3 : OrchState M)
    (p1 p2 : OrchState M × M)
    (hf : j2.file = j1.file) (hc : j2.compiler = j1.compiler) (ha : j2.args = j1.args)
    (hs1 : s1 = (runJobs engine s0 pre).1)
    (hp1 : p1 = processJob engine s1 j1)
    (hs3 : s3 = (runJobs engine p1.1 mid).1)
    (hp2 : p2 = processJob engine s3 j2) :
    (runJobs engine s0 (pre ++ j1 :: mid ++ j2 :: post)).2 =
        (runJobs engine s0 pre).2 ++ p1.2 :: (runJobs engine p1.1 mid).2
          ++ p2.2 :: (runJobs engine p2.1 post).2 ∧
    p2.2 = p1.2 ∧
    p2.1.found_cached = s3.found_cached + 1 ∧
    p2.1.engine_calls = s3.engine_calls ∧
    p1.1.engine_calls ≤ s1.engine_calls + 1 := by
  have hkey : cacheKey j2 = cacheKey j1 := by rw [cacheKey, cacheKey, hf, hc, ha]
  have hlook1 : lookupKey (cacheKey j1) p1.1.cache = some p1.2 := by
    rw [hp1]
    exact processJob_lookup_self engine s1 j1
  have hlook3 : lookupKey (cacheKey j2) s3.cache = some p1.2 := by
    rw [hkey, hs3]
    exact runJobs_preserves engine mid p1.1 _ _ hlook1
  have hp2' : p2 = ({ s3 with found_cached := s3.found_cached + 1 }, p1.2) := by
    rw [hp2, processJob_hit engine s3 j2 p1.2 hlook3]
  refine ⟨?_, ?_, ?_, ?_, ?_⟩
  · subst hs1
    subst hp1
    subst hs3
    subst hp2
    simp only [runJobs_append, runJobs_cons]
  · rw [hp2']
  · rw [hp2']
  · rw [hp2']
  · rw [hp1]
    cases hl : lookupKey (cacheKey j1) s1.cache with
    | some w =>
      rw [processJob_hit engine s1 j1 w hl]
      simp
    | none =>
      rw [processJob_miss engine s1 j1 hl]

/-- Witness for C4: two identical jobs against an empty cache; the first
misses (one engine call), the second hits and bumps the reuse counter. -/
theorem duplicate_jobs_cached_witness :
    (((⟨['a'], ['c'], []⟩ : Job).file = (⟨['a'], ['c'], []⟩ : Job).file ∧
      (⟨['a'], ['c'], []⟩ : Job).compiler = (⟨['a'], ['c'], []⟩ : Job).compiler ∧
      (⟨['a'], ['c'], []⟩ : Job).args = (⟨['a'], ['c'], []⟩ : Job).args) ∧
     ((⟨[], 0, 0, []⟩ : OrchState ℕ) = (runJobs (fun _ => (7 : ℕ)) ⟨[], 0, 0, []⟩ []).1 ∧
      ((⟨[(['a', ':', 'c'], 7)], 0, 1, [[(['a', ':', 'c'], 7)]]⟩ : OrchState ℕ), (7 : ℕ))
        = processJob (fun _ => (7 : ℕ)) ⟨[], 0, 0, []⟩ ⟨['a'], ['c'], []⟩ ∧
      (⟨[(['a', ':', 'c'], 7)], 0, 1, [[(['a', ':', 'c'], 7)]]⟩ : OrchState ℕ)
        = (runJobs (fun _ => (7 : ℕ))
            ((⟨[(['a', ':', 'c'], 7)], 0, 1, [[(['a', ':', 'c'], 7)]]⟩ : OrchState ℕ),
              (7 : ℕ)).1 []).1 ∧
      ((⟨[(['a', ':', 'c'], 7)], 1, 1, [[(['a', ':', 'c'], 7)]]⟩ : OrchState ℕ), (7 : ℕ))
        = processJob (fun _ => (7 : ℕ)) ⟨[(['a', ':', 'c'], 7)], 0, 1, [[(['a', ':', 'c'], 7)]]⟩
            ⟨['a'], ['c'], []⟩)) ∧
    ((runJobs (fun _ => (7 : ℕ)) ⟨[], 0, 0, []⟩
        ([] ++ (⟨['a'], ['c'], []⟩ : Job) :: [] ++ (⟨['a'], ['c'], []⟩ : Job) :: [])).2 =
          (runJobs (fun _ => (7 : ℕ)) ⟨[], 0, 0, []⟩ []).2 ++
            ((⟨[(['a', ':', 'c'], 7)], 0, 1, [[(['a', ':', 'c'], 7)]]⟩ : OrchState ℕ), (7 : ℕ)).2 ::
              (runJobs (fun _ => (7 : ℕ))
                ((⟨[(['a', ':', 'c'], 7)], 0, 1, [[(['a', ':', 'c'], 7)]]⟩ : OrchState ℕ),
                  (7 : ℕ)).1 []).2 ++
                ((⟨[(['a', ':', 'c'], 7)], 1, 1, [[(['a', ':', 'c'], 7)]]⟩ : OrchState ℕ), (7 : ℕ)).2 ::
                  (runJobs (fun _ => (7 : ℕ))
                    ((⟨[(['a', ':', 'c'], 7)], 1, 1, [[(['a', ':', 'c'], 7)]]⟩ : OrchState ℕ),
                      (7 : ℕ)).1 []).2 ∧
      ((⟨[(['a', ':', 'c'], 7)], 1, 1, [[(['a', ':', 'c'], 7)]]⟩ : OrchState ℕ), (7 : ℕ)).2
        = ((⟨[(['a', ':', 'c'], 7)], 0, 1, [[(['a', ':', 'c'], 7)]]⟩ : OrchState ℕ), (7 : ℕ)).2 ∧
      ((⟨[(['a', ':', 'c'], 7)], 1, 1, [[(['a', ':', 'c'], 7)]]⟩ : OrchState ℕ),
          (7 : ℕ)).1.found_cached
        = (⟨[(['a', ':', 'c'], 7)], 0, 1, [[(['a', ':', 'c'], 7)]]⟩ : OrchState ℕ).found_cached + 1 ∧
      ((⟨[(['a', ':', 'c'], 7)], 1, 1, [[(['a', ':', 'c'], 7)]]⟩ : OrchState ℕ),
          (7 : ℕ)).1.engine_calls
        = (⟨[(['a', ':', 'c'], 7)], 0, 1, [[(['a', ':', 'c'], 7)]]⟩ : OrchState ℕ).engine_calls ∧
      ((⟨[(['a', ':', 'c'], 7)], 0, 1, [[(['a', ':', 'c'], 7)]]⟩ : OrchState ℕ),
          (7 : ℕ)).1.engine_calls
        ≤ (⟨[], 0, 0, []⟩ : OrchState ℕ).engine_calls + 1) :=
  ⟨⟨⟨rfl, rfl, rfl⟩, by decide, by decide, by decide, by decide⟩,
    duplicate_jobs_cached (fun _ => (7 : ℕ)) ⟨[], 0, 0, []⟩ [] [] []
      ⟨['a'], ['c'], []⟩ ⟨['a'], ['c'], []⟩
      ⟨[], 0, 0, []⟩ ⟨[(['a', ':', 'c'], 7)], 0, 1, [[(['a', ':', 'c'], 7)]]⟩
      (⟨[(['a', ':', 'c'], 7)], 0, 1, [[(['a', ':', 'c'], 7)]]⟩, 7)
      (⟨[(['a', ':', 'c'], 7)], 1, 1, [[(['a', ':', 'c'], 7)]]⟩, 7)
      rfl rfl rfl (by decide) (by decide) (by decide) (by decide)⟩

/-- One job keeps the cache file in sync with the in-memory cache, and
writes the file exactly as often as it invokes the engine. -/
theorem processJob_persist_sync {M : Type} (engine : Job → M) (s : OrchState M) (j : Job)
    (h : s.persists.getLast? = some s.cache) :
    (processJob engine s j).1.persists.getLast? = some (processJob engine s j).1.cache ∧
    (processJob engine s j).1.persists.length + s.engine_calls
      = s.persists.length + (processJob engine s j).1.engine_calls := by
  cases hl : lookupKey (cacheKey j) s.cache with
  | some w =>
    rw [processJob_hit engine s j w hl]
    exact ⟨h, rfl⟩
  | none =>
    rw [processJob_miss engine s j hl]
    refine ⟨List.getLast?_concat _, ?_⟩
    show (s.persists ++ [s.cache ++ [(cacheKey j, engine j)]]).length + s.engine_calls
      = s.persists.length + (s.engine_calls + 1)
    simp only [List.length_append, List.length_cons, List.length_nil]
    omega

/-- Whole-run version of the persistence invariant. -/
theorem runJobs_persist_sync {M : Type} (engine : Job → M) :
    ∀ (jobs : List Job) (s : OrchState M), s.persists.getLast? = some s.cache →
      ((runJobs engine s jobs).1).persists.getLast? = some ((runJobs engine s jobs).1).cache ∧
      ((runJobs engine s jobs).1).persists.length + s.engine_calls
        = s.persists.length + ((runJobs engine s jobs).1).engine_calls := by
  intro jobs
  induction jobs with
  | nil => intro s h; exact ⟨h, rfl⟩
  | cons j js ih =>
    intro s h
    rw [runJobs_cons]
    dsimp only
    have hstep := processJob_persist_sync engine s j h
    have hrest := ih (processJob engine s j).1 hstep.1
    refine ⟨hrest.1, ?_⟩
    have h1 := hstep.2
    have h2 := hrest.2
    omega

/-- C8: across a run, existing cache bindings are never evicted or
overwritten; if the cache file matched the cache at the start it matches
again after every job; the file is written exactly once per newly computed
entry (never batched), and each miss writes the whole updated cache
immediately. -/
theorem cache_monotone_persist {M : Type} (engine : Job → M) (s0 : OrchState M)
    (jobs : List Job) (hsync : s0.persists.getLast? = some s0.cache) :
    (∀ (k : List Char) (v : M), lookupKey k s0.cache = some v →
        lookupKey k ((runJobs engine s0 jobs).1).cache = some v) ∧
    ((runJobs engine s0 jobs).1).persists.getLast?
        = some ((runJobs engine s0 jobs).1).cache ∧
    ((runJobs engine s0 jobs).1).persists.length + s0.engine_calls
        = s0.persists.length + ((runJobs engine s0 jobs).1).engine_calls ∧
    (∀ (s : OrchState M) (j : Job), lookupKey (cacheKey j) s.cache = none →
        (processJob engine s j).1.persists
          = s.persists ++ [(processJob engine s j).1.cache]) := by
  have hsync' := runJobs_persist_sync engine jobs s0 hsync
  refine ⟨fun k v h => runJobs_preserves engine jobs s0 k v h, hsync'.1, hsync'.2, ?_⟩
  intro s j hmiss
  rw [processJob_miss engine s j hmiss]

/-- Witness for C8: one job against an initially synced empty cache. -/
theorem cache_monotone_persist_witness :
    ((⟨[], 0, 0, [[]]⟩ : OrchState ℕ).persists.getLast?
        = some (⟨[], 0, 0, [[]]⟩ : OrchState ℕ).cache) ∧
    ((∀ (k : List Char) (v : ℕ),
        lookupKey k (⟨[], 0, 0, [[]]⟩ : OrchState ℕ).cache = some v →
        lookupKey k ((runJobs (fun _ => (7 : ℕ)) ⟨[], 0, 0, [[]]⟩
            [⟨['a'], ['c'], []⟩]).1).cache = some v) ∧
      ((runJobs (fun _ => (7 : ℕ)) ⟨[], 0, 0, [[]]⟩ [⟨['a'], ['c'], []⟩]).1).persists.getLast?
          = some ((runJobs (fun _ => (7 : ℕ)) ⟨[], 0, 0, [[]]⟩ [⟨['a'], ['c'], []⟩]).1).cache ∧
      ((runJobs (fun _ => (7 : ℕ)) ⟨[], 0, 0, [[]]⟩ [⟨['a'], ['c'], []⟩]).1).persists.length
            + (⟨[], 0, 0, [[]]⟩ : OrchState ℕ).engine_calls
          = (⟨[], 0, 0, [[]]⟩ : OrchState ℕ).persists.length
            + ((runJobs (fun _ => (7 : ℕ)) ⟨[], 0, 0, [[]]⟩
                [⟨['a'], ['c'], []⟩]).1).engine_calls ∧
      (∀ (s : OrchState ℕ) (j : Job), lookupKey (cacheKey j) s.cache = none →
        (processJob (fun _ => (7 : ℕ)) s j).1.persists
          = s.persists ++ [(processJob (fun _ => (7 : ℕ)) s j).1.cache])) :=
  ⟨by decide,
    cache_monotone_persist (fun _ => (7 : ℕ)) ⟨[], 0, 0, [[]]⟩
      [⟨['a'], ['c'], []⟩] (by decide)⟩
